import Mathlib

/-!
Verification of the cdoc2json repository: a pair of command-line tools that
move documentation comments between C/C++ source files and a JSON sidecar.

The Go sources are shallowly embedded below:
* `main.go` (the extractor `cdoc2json`): `less`, `mergeLineComments`,
  `isConsequtiveLineComments`, `mergeLineComment`, `addDocComments`,
  `findDecls`, the ident-map update loop of `parse`, and the fatal-on-error
  file loop of `main`.
* `cmd/addcdocs/main.go` (the injector `addcdocs`): `normalizeComment`,
  `findGlobalDecls`, and `addComments`.

Go strings are byte strings; every string handled by the modelled code is
built from ASCII pieces, so they are embedded as lists of characters.
`uint32` arithmetic is modelled on `Nat` with explicit reduction modulo
`2 ^ 32` exactly where the Go code computes on `uint32` values.
The external C/C++ front end (`github.com/mewspring/cc` with clang) is an
out-of-scope collaborator: its parse trees are embedded as a tree datatype,
and its traversal `cc.Walk` is modelled from the collaborator contract
(a top-down traversal that visits every node exactly once).
-/

/-- Go strings (byte strings; all modelled data is ASCII) as lists of characters. -/
abbrev Str := List Char

/-- `2 ^ 32`, the modulus of Go's `uint32` arithmetic. -/
def U32 : Nat := 2 ^ 32

/-- Go `uint32` addition: wraps modulo `2 ^ 32`. -/
def add32 (a b : Nat) : Nat := (a + b) % U32

/-- Go `uint32` subtraction: wraps modulo `2 ^ 32`. -/
def sub32 (a b : Nat) : Nat := (a % U32 + (U32 - b % U32)) % U32

/-- Go `strings.Split(s, "\n")`: the pieces of `s` between newline characters
(always at least one piece, possibly empty). -/
def splitNl : Str → List Str
  | [] => [[]]
  | c :: rest =>
    match splitNl rest with
    | [] => [[]]
    | p :: ps => if c = '\n' then [] :: p :: ps else (c :: p) :: ps

/-- Go `strings.Join(ps, "\n")`: concatenation with a newline between pieces. -/
def joinNl : List Str → Str
  | [] => []
  | [p] => p
  | p :: q :: ps => p ++ '\n' :: joinNl (q :: ps)

/-- Go `strings.Count(s, "\n")`: the separator is a single character, so this
is the number of newline characters in `s`. -/
def countNl (s : Str) : Nat := s.count '\n'

/-- Lookup in a Go map, embedded as an association list with unique keys. -/
def alistLookup {α β : Type} [DecidableEq α] : List (α × β) → α → Option β
  | [], _ => none
  | (k, v) :: rest, key => if k = key then some v else alistLookup rest key

/-- Update of a Go map, embedded as an association list: overwrite the binding
of `key` if present, otherwise add one. -/
def alistInsert {α β : Type} [DecidableEq α] : List (α × β) → α → β → List (α × β)
  | [], key, v => [(key, v)]
  | (k, w) :: rest, key, v =>
    if k = key then (key, v) :: rest else (k, w) :: alistInsert rest key v

/-- `cc.Location` (file, 1-based line and column; line and column are `uint32`
in Go, so every value stored by the tools is below `2 ^ 32`). -/
structure Location where
  file : Str
  line : Nat
  col : Nat
deriving DecidableEq

/-- `main.go`, `less`: ordering of source locations, lexicographic on
(line, column); the file is ignored. -/
def less (a b : Location) : Bool :=
  if a.line < b.line then true
  else if a.line > b.line then false
  else decide (a.col < b.col)

/-- `docs.Comment`: a comment lexeme, its literal text (delimiters included)
and its start position. -/
structure Comment where
  lit : Str
  loc : Location
deriving DecidableEq

/-- The clang cursor kinds the tools discriminate on: `Cursor_VarDecl`,
`Cursor_FunctionDecl`, `Cursor_Namespace`, and everything else. -/
inductive CKind where
  | varDecl
  | functionDecl
  | namespaceK
  | other
deriving DecidableEq

/-- A `cc.Node` of the external parser's tree: cursor kind, spelled
identifier name, source location, and child nodes. -/
inductive Node where
  | mk : CKind → Str → Location → List Node → Node

/-- The cursor kind of a node (`n.Body.Kind()`). -/
def Node.kind : Node → CKind
  | .mk k _ _ _ => k

/-- The spelled identifier of a node (`n.Body.Spelling()`). -/
def Node.spelling : Node → Str
  | .mk _ s _ _ => s

/-- The source location of a node (`n.Loc`). -/
def Node.loc : Node → Location
  | .mk _ _ l _ => l

/-- The children of a node (`n.Children`). -/
def Node.children : Node → List Node
  | .mk _ _ _ cs => cs

/-- `docs.DocComment`: a declaration paired with its adopted doc comment. -/
structure DocComment where
  decl : Node
  comment : Comment

mutual

/-- Modelled from the spec: the external collaborator `cc.Walk` must perform
a linear top-down traversal visiting every node exactly once; `walk` lists
the nodes of the tree in that pre-order. -/
def walk : Node → List Node
  | .mk k s l cs => .mk k s l cs :: walkList cs

/-- The traversal of `walk`, continued over a list of sibling subtrees. -/
def walkList : List Node → List Node
  | [] => []
  | n :: ns => walk n ++ walkList ns

end

/-- The kind filter of the visitor in `findDecls` and of the child switch in
`findGlobalDecls`: keep variable and function declarations. -/
def isDeclKind (n : Node) : Bool :=
  match n.kind with
  | .varDecl => true
  | .functionDecl => true
  | _ => false

/-- The comparator `sort.Slice` is given in `findDecls`: `a` may precede `b`
whenever `b` is not strictly before `a`. -/
def declLE (a b : Node) : Prop := less b.loc a.loc = false

instance : DecidableRel declLE := fun a b => by
  unfold declLE; infer_instance

/-- `main.go`, `findDecls`: collect every variable- or function-declaration
node during `cc.Walk` (which visits every node of the tree), then sort the
collected declarations by `less` on their locations. Go's unstable
`sort.Slice` is modelled by insertion sort over the same comparator. -/
def findDecls (root : Node) : List Node :=
  List.insertionSort declLE ((walk root).filter isDeclKind)

/-- The end location of a comment, as computed inside `addDocComments`:
the start location with `uint32(strings.Count(lit, "\n"))` added (as
`uint32`) to the line; the column is left at the start column. -/
def commentEndLoc (c : Comment) : Location :=
  { c.loc with line := add32 c.loc.line (countNl c.lit) }

/-- `main.go`, `isConsequtiveLineComments`: both literals start with `//` and
`a`'s end line plus one equals `b`'s start line (`uint32` arithmetic). -/
def isConsequtiveLineComments (a b : Comment) : Bool :=
  if !(("//".data).isPrefixOf a.lit) then false
  else if !(("//".data).isPrefixOf b.lit) then false
  else add32 a.loc.line (countNl a.lit) == sub32 b.loc.line 1

/-- `main.go`, `mergeLineComment`: append `b`'s literal to `a`'s, separated
by a newline; `a`'s position is kept. -/
def mergeLineComment (a b : Comment) : Comment :=
  { a with lit := a.lit ++ '\n' :: b.lit }

/-- The inner loop of `mergeLineComments`: scan the comments after position
`i` with index `j`, merging each comment found consequtive to the running
comment `a` (and incrementing `i` for each merge). Returns the final `a`
and the number of merges (the total increment applied to `i`). -/
def mergeInner (a : Comment) : List Comment → Comment × Nat
  | [] => (a, 0)
  | b :: bs =>
    if isConsequtiveLineComments a b then
      let r := mergeInner (mergeLineComment a b) bs
      (r.1, r.2 + 1)
    else mergeInner a bs

/-- The outer loop of `mergeLineComments`: take the comment at the cursor,
run the inner scan over the remaining comments, emit the merged comment, and
resume after skipping the merged-away entries. The loop runs at most once
per list element, so the list length is fuel enough. -/
def mergeOuter : Nat → List Comment → List Comment
  | 0, _ => []
  | _ + 1, [] => []
  | fuel + 1, a :: rest =>
    let r := mergeInner a rest
    r.1 :: mergeOuter fuel (rest.drop r.2)

/-- `main.go`, `mergeLineComments`. -/
def mergeLineComments (comments : List Comment) : List Comment :=
  mergeOuter comments.length comments

/-- The inner loop of `addDocComments` for one declaration: consume comments
from the cursor; stop (keeping the rest) as soon as the declaration starts
before the comment's end; adopt every consumed comment whose end line is
within one (`uint32` subtraction) of the declaration's start line. Returns
the adopted pairs and the comments left for the following declarations. -/
def addDocInner (decl : Node) : List Comment → List DocComment × List Comment
  | [] => ([], [])
  | c :: rest =>
    let cEnd := commentEndLoc c
    if less decl.loc cEnd then ([], c :: rest)
    else
      let r := addDocInner decl rest
      if sub32 decl.loc.line cEnd.line ≤ 1 then (⟨decl, c⟩ :: r.1, r.2) else r

/-- `main.go`, `addDocComments`: pair declarations with comments using a
single forward cursor over the comments. -/
def addDocComments : List Node → List Comment → List DocComment
  | [], _ => []
  | decl :: ds, comments =>
    let r := addDocInner decl comments
    r.1 ++ addDocComments ds r.2

/-- The map update in `parse` (main.go lines 76-83): warn when the identifier
is already present (whatever the stored value), then overwrite. Returns the
updated map and whether the warning was printed. -/
def putComment (m : List (Str × Str)) (ident new : Str) :
    List (Str × Str) × Bool :=
  (alistInsert m ident new, (alistLookup m ident).isSome)

/-- The loop of `parse` over the doc comments of one file: store every
adopted pair under the declaration's spelling. -/
def storeDocComments (m : List (Str × Str)) (docComments : List DocComment) :
    List (Str × Str) :=
  docComments.foldl (fun acc dc => (putComment acc dc.decl.spelling dc.comment.lit).1) m

/-- `main.go`, `parse`, for one source file: the scanner and the external
parser either fail (their error is returned) or supply the comment sequence
and the parse tree; then the comments are merged, the declarations collected,
the doc comments associated and stored into the identifier map. -/
def parse (commentFromIdent : List (Str × Str))
    (r : Except Str (List Comment × Node)) : Except Str (List (Str × Str)) :=
  match r with
  | .error e => .error e
  | .ok (comments, root) =>
    .ok (storeDocComments commentFromIdent
          (addDocComments (findDecls root) (mergeLineComments comments)))

/-- The file loop of the extractor's `main`: each source file is processed by
`parse`; on error `log.Fatalf` aborts the whole run (modelled by returning
the error), otherwise the accumulated identifier map is threaded on. -/
def extractorRun : List (Except Str (List Comment × Node)) →
    List (Str × Str) → Except Str (List (Str × Str))
  | [], m => .ok m
  | r :: rs, m =>
    match parse m r with
    | .error e => .error e
    | .ok m2 => extractorRun rs m2

/-- `cmd/addcdocs/main.go`, `normalizeComment`: strip one leading slash from
every line beginning with `///`, leave all other lines untouched. -/
def normalizeComment (comment : Str) : Str :=
  joinNl ((splitNl comment).map fun line =>
    if ("///".data).isPrefixOf line then line.drop 1 else line)

/-- `cmd/addcdocs/main.go`, `findGlobalDecls`: scan the root's children once,
re-rooting at each namespace child encountered (so the last namespace child
wins), then keep the variable- and function-declaration children of the
resulting root, in child order. -/
def findGlobalDecls (root : Node) : List Node :=
  let root1 := root.children.foldl
    (fun r child => if child.kind = .namespaceK then child else r) root
  root1.children.filter isDeclKind

/-- The declaration loop of `addComments`: the line-number-to-comment map,
built by looking each declaration's spelling up in the identifier map and,
on a hit, recording the normalized comment under the declaration's start
line (a later declaration on the same line overwrites). -/
def buildLineComments (decls : List Node) (docComments : List (Str × Str)) :
    List (Nat × Str) :=
  decls.foldl
    (fun acc decl =>
      match alistLookup docComments decl.spelling with
      | some comment => alistInsert acc decl.loc.line (normalizeComment comment)
      | none => acc) []

/-- The emit loop of `addComments`: walk the split lines with 0-based index
`i`; before line number `uint32(i+1)` emit the comment stored for that line
(if any) and a newline, then the line itself and a newline. -/
def emitLines (lineComments : List (Nat × Str)) : Nat → List Str → Str
  | _, [] => []
  | i, line :: rest =>
    (match alistLookup lineComments (add32 i 1) with
     | some c => c ++ ['\n']
     | none => []) ++ line ++ '\n' :: emitLines lineComments (i + 1) rest

/-- `cmd/addcdocs/main.go`, `addComments`: rebuild the source text with the
looked-up comments inserted, and report whether the new text differs from
the original (`change := oldSrc != newSrc`). -/
def addComments (src : Str) (decls : List Node) (docComments : List (Str × Str)) :
    Str × Bool :=
  let newSrc := emitLines (buildLineComments decls docComments) 0 (splitNl src)
  (newSrc, if src = newSrc then false else true)

/-! ### Concrete data used by the claim analyses

The trees and comment lists below play the role of the external scanner's
and parser's output for small representative C source files. -/

/-- A file name shared by the concrete locations. -/
def cf : Str := ("t.c").data

/-- Line comment on line 1 of the merge example. -/
def cmFoo : Comment := ⟨("// foo").data, ⟨cf, 1, 1⟩⟩

/-- Block comment at line 2, column 1 of the merge example. -/
def cmBar : Comment := ⟨("/* bar */").data, ⟨cf, 2, 1⟩⟩

/-- Line comment at line 2, column 11 (on the block comment's line). -/
def cmBaz : Comment := ⟨("// baz").data, ⟨cf, 2, 11⟩⟩

/-- A variable declaration starting at line 5, column 10. -/
def dFoo : Node := Node.mk CKind.varDecl ("foo").data ⟨cf, 5, 10⟩ []

/-- Line comment ending on line 4, just above `dFoo`. -/
def cA : Comment := ⟨("// hello").data, ⟨cf, 4, 1⟩⟩

/-- Block comment on line 5, before `dFoo`'s column. -/
def cB : Comment := ⟨("/* hi */").data, ⟨cf, 5, 1⟩⟩

/-- A two-line source file: a doc comment above a function definition. -/
def origSrc : Str := ("// does foo\nint foo() \x7b\x7d").data

/-- The parse tree of `origSrc`: one function declaration on line 2. -/
def cTree : Node :=
  Node.mk CKind.other ("root").data ⟨cf, 1, 1⟩
    [Node.mk CKind.functionDecl ("foo").data ⟨cf, 2, 5⟩ []]

/-- The comment the scanner yields for `origSrc`. -/
def cComments : List Comment := [⟨("// does foo").data, ⟨cf, 1, 1⟩⟩]

/-- The identifier map the extractor pipeline builds from `origSrc`. -/
def cMap : List (Str × Str) :=
  storeDocComments [] (addDocComments (findDecls cTree) (mergeLineComments cComments))

/-- `origSrc` with its doc-comment line removed. -/
def strippedSrc : Str := ("int foo() \x7b\x7d").data

/-- The parse tree of `strippedSrc`: the function declaration is on line 1. -/
def cTree2 : Node :=
  Node.mk CKind.other ("root").data ⟨cf, 1, 1⟩
    [Node.mk CKind.functionDecl ("foo").data ⟨cf, 1, 5⟩ []]

/-- Function declaration on line 2, a direct child of `cTree7`. -/
def nF1 : Node := Node.mk CKind.functionDecl ("f1").data ⟨cf, 2, 1⟩ []

/-- Function declaration on line 3, a direct child of `cTree7` listed first. -/
def nF2 : Node := Node.mk CKind.functionDecl ("f2").data ⟨cf, 3, 1⟩ []

/-- Function declaration on line 5, nested below `nW`. -/
def nG : Node := Node.mk CKind.functionDecl ("g").data ⟨cf, 5, 1⟩ []

/-- A non-declaration wrapper node containing `nG`. -/
def nW : Node := Node.mk CKind.other ("w").data ⟨cf, 4, 1⟩ [nG]

/-- A tree whose direct children are `nF2`, `nF1` (out of source order) and
the wrapper `nW` hiding `nG`. -/
def cTree7 : Node := Node.mk CKind.other ("root").data ⟨cf, 1, 1⟩ [nF2, nF1, nW]

/-! ### Arithmetic and location lemmas -/

/-- The `uint32` modulus is positive. -/
lemma U32_pos : 0 < U32 := by norm_num [U32]

/-- A wrapped `uint32` sum is below the modulus. -/
lemma add32_lt (a b : Nat) : add32 a b < U32 := Nat.mod_lt _ U32_pos

/-- The end line computed by `commentEndLoc` is a `uint32` value. -/
lemma commentEndLoc_line_lt (c : Comment) : (commentEndLoc c).line < U32 :=
  add32_lt _ _

/-- `uint32` subtraction agrees with exact subtraction when no wrap occurs. -/
lemma sub32_eq_sub {a b : Nat} (hba : b ≤ a) (ha : a < U32) (hb : b < U32) :
    sub32 a b = a - b := by
  unfold sub32
  rw [Nat.mod_eq_of_lt ha, Nat.mod_eq_of_lt hb]
  have h1 : a + (U32 - b) = U32 + (a - b) := by omega
  rw [h1, Nat.add_mod_left, Nat.mod_eq_of_lt (by omega)]

/-- Unfolding of `less a b = false`: `b` is on an earlier line than `a`, or on
the same line at the same or an earlier column. -/
lemma less_eq_false_iff {a b : Location} :
    less a b = false ↔ (b.line < a.line ∨ (a.line = b.line ∧ b.col ≤ a.col)) := by
  unfold less
  split_ifs with h1 h2
  · simp only [Bool.true_eq_false, false_iff]
    omega
  · simp only [eq_self_iff_true, true_iff]
    omega
  · simp only [decide_eq_false_iff_not]
    omega

/-! ### Splitting and joining lines -/

/-- The step equation of `splitNl` on a cons cell, given the split of the
tail. -/
lemma splitNl_cons_eq (c : Char) (rest : Str) {p : Str} {ps : List Str}
    (h : splitNl rest = p :: ps) :
    splitNl (c :: rest) = if c = '\n' then [] :: p :: ps else (c :: p) :: ps := by
  simp only [splitNl, h]

/-- `splitNl` always produces at least one piece. -/
lemma splitNl_ne_nil : ∀ (s : Str), splitNl s ≠ []
  | [] => by simp [splitNl]
  | c :: rest => by
    rcases h : splitNl rest with _ | ⟨p, ps⟩
    · exact absurd h (splitNl_ne_nil rest)
    · rw [splitNl_cons_eq c rest h]
      split <;> simp

/-- No piece produced by `splitNl` contains a newline. -/
lemma noNl_mem_splitNl : ∀ (s : Str), ∀ p ∈ splitNl s, '\n' ∉ p
  | [], p, hp => by
    simp only [splitNl, List.mem_singleton] at hp
    subst hp; simp
  | c :: rest, p, hp => by
    rcases h : splitNl rest with _ | ⟨q, qs⟩
    · exact absurd h (splitNl_ne_nil rest)
    · rw [splitNl_cons_eq c rest h] at hp
      have ih := noNl_mem_splitNl rest
      rw [h] at ih
      by_cases hc : c = '\n'
      · rw [if_pos hc] at hp
        rcases List.mem_cons.mp hp with hp1 | hp1
        · subst hp1; simp
        · exact ih p hp1
      · rw [if_neg hc] at hp
        rcases List.mem_cons.mp hp with hp1 | hp1
        · subst hp1
          simp only [List.mem_cons, not_or]
          exact ⟨fun he => hc he.symm, ih q (by simp)⟩
        · exact ih p (List.mem_cons_of_mem _ hp1)

/-- Splitting a newline-free string yields that single piece. -/
lemma splitNl_noNl : ∀ {s : Str}, '\n' ∉ s → splitNl s = [s]
  | [], _ => rfl
  | c :: rest, h => by
    simp only [List.mem_cons, not_or] at h
    rw [splitNl_cons_eq c rest (splitNl_noNl h.2),
      if_neg fun he => h.1 he.symm]

/-- Splitting after a newline-free prefix peels off that prefix. -/
lemma splitNl_append_cons : ∀ {p : Str}, '\n' ∉ p → ∀ (t : Str),
    splitNl (p ++ '\n' :: t) = p :: splitNl t
  | [], _, t => by
    rcases h : splitNl t with _ | ⟨q, qs⟩
    · exact absurd h (splitNl_ne_nil t)
    · rw [List.nil_append, splitNl_cons_eq '\n' t h, if_pos rfl]
  | c :: cs, hp, t => by
    simp only [List.mem_cons, not_or] at hp
    rw [List.cons_append, splitNl_cons_eq c _ (splitNl_append_cons hp.2 t),
      if_neg fun he => hp.1 he.symm]

/-- `splitNl` is a left inverse of `joinNl` on newline-free pieces. -/
lemma splitNl_joinNl : ∀ {ps : List Str}, ps ≠ [] → (∀ p ∈ ps, '\n' ∉ p) →
    splitNl (joinNl ps) = ps
  | [], h, _ => absurd rfl h
  | [p], _, hp => by
    simp only [joinNl]
    exact splitNl_noNl (hp p (by simp))
  | p :: q :: ps, _, hp => by
    simp only [joinNl]
    rw [splitNl_append_cons (hp p (by simp)) _,
      splitNl_joinNl (by simp) fun r hr => hp r (List.mem_cons_of_mem _ hr)]

/-! ### Emission lemmas for `addComments` -/

/-- With no stored line comments, `emitLines` emits each line followed by a
newline. -/
lemma emitLines_nil_map : ∀ (lines : List Str) (i : Nat),
    emitLines [] i lines = lines.foldr (fun l acc => l ++ '\n' :: acc) []
  | [], _ => rfl
  | l :: rest, i => by
    simp only [emitLines, alistLookup, List.foldr_cons, List.nil_append,
      emitLines_nil_map rest (i + 1)]

/-- Emitting every piece of `splitNl s` followed by a newline rebuilds `s`
with one extra newline appended. -/
lemma foldr_splitNl : ∀ (s : Str),
    (splitNl s).foldr (fun l acc => l ++ '\n' :: acc) [] = s ++ ['\n']
  | [] => rfl
  | c :: rest => by
    rcases h : splitNl rest with _ | ⟨p, ps⟩
    · exact absurd h (splitNl_ne_nil rest)
    · have ih : (p :: ps).foldr (fun l acc => l ++ '\n' :: acc) [] = rest ++ ['\n'] := by
        rw [← h]; exact foldr_splitNl rest
    
      rw [splitNl_cons_eq c rest h]
      by_cases hc : c = '\n'
      · subst hc
        rw [if_pos rfl, List.foldr_cons, ih]
        simp
      · rw [if_neg hc]
        have e : List.foldr (fun l acc => l ++ '\n' :: acc) [] ((c :: p) :: ps) =
            c :: List.foldr (fun l acc => l ++ '\n' :: acc) [] (p :: ps) := by
          simp
        rw [e, ih]
        simp

/-- A string never equals itself with a newline appended. -/
lemma self_ne_append_nl (s : Str) : s ≠ s ++ ['\n'] := by
  intro h
  have := congrArg List.length h
  simp at this

/-- When every declaration misses the identifier map, no line comment is
recorded. -/
lemma buildLineComments_eq_nil : ∀ (decls : List Node) (dcs : List (Str × Str)),
    (∀ d ∈ decls, alistLookup dcs d.spelling = none) →
    buildLineComments decls dcs = []
  | [], _, _ => rfl
  | d :: ds, dcs, h => by
    have h1 : alistLookup dcs d.spelling = none := h d (by simp)
    have h2 := buildLineComments_eq_nil ds dcs fun x hx => h x (by simp [hx])
    unfold buildLineComments at h2 ⊢
    simp only [List.foldl_cons, h1]
    exact h2

/-- When no line comment is recorded, `addComments` returns the source with
exactly one newline appended and reports a change. -/
lemma addComments_of_lineComments_nil {src : Str} {decls : List Node}
    {dcs : List (Str × Str)} (h : buildLineComments decls dcs = []) :
    addComments src decls dcs = (src ++ ['\n'], true) := by
  have e : addComments src decls dcs
      = (src ++ ['\n'], if src = src ++ ['\n'] then false else true) := by
    unfold addComments
    rw [h, emitLines_nil_map, foldr_splitNl]
  rw [e, if_neg (self_ne_append_nl src)]

/-! ### Association-list lemmas -/

/-- Looking up the key just inserted finds the inserted value. -/
lemma alistLookup_insert_self {α β : Type} [DecidableEq α] :
    ∀ (m : List (α × β)) (k : α) (v : β),
      alistLookup (alistInsert m k v) k = some v
  | [], k, v => by simp [alistInsert, alistLookup]
  | (a, b) :: rest, k, v => by
    by_cases h : a = k
    · simp [alistInsert, h, alistLookup]
    · simp only [alistInsert, if_neg h, alistLookup, alistLookup_insert_self rest k v]

/-! ### Lemmas about the association engine -/

/-- Every pair produced by the inner loop of `addDocComments` carries the
declaration handed to it, and its comment satisfies the adoption window:
the comment does not end after the declaration's start, and its end line is
the declaration's start line or the line just above. -/
lemma addDocInner_window : ∀ (d : Node) (cs : List Comment), d.loc.line < U32 →
    ∀ p ∈ (addDocInner d cs).1,
      p.decl = d ∧ less d.loc (commentEndLoc p.comment) = false ∧
      (commentEndLoc p.comment).line ≤ d.loc.line ∧
      d.loc.line ≤ (commentEndLoc p.comment).line + 1
  | d, [], _, p, hp => by simp [addDocInner] at hp
  | d, c :: rest, hd, p, hp => by
    by_cases hl : less d.loc (commentEndLoc c) = true
    · simp [addDocInner, hl] at hp
    · have hl2 : less d.loc (commentEndLoc c) = false := by
        simpa using hl
      by_cases hs : sub32 d.loc.line (commentEndLoc c).line ≤ 1
      · simp only [addDocInner, hl2, Bool.false_eq_true, if_false, if_pos hs] at hp
        rcases List.mem_cons.mp hp with hp1 | hp1
        · subst hp1
          have hle : (commentEndLoc c).line ≤ d.loc.line := by
            rcases less_eq_false_iff.mp hl2 with h | h <;> omega
          have hsub := sub32_eq_sub hle hd (commentEndLoc_line_lt c)
          refine ⟨rfl, hl2, hle, ?_⟩
          show d.loc.line ≤ (commentEndLoc c).line + 1
          omega
        · exact addDocInner_window d rest hd p hp1
      · simp only [addDocInner, hl2, Bool.false_eq_true, if_false, if_neg hs] at hp
        exact addDocInner_window d rest hd p hp

/-- The comments adopted by the inner loop, followed by the comments it
leaves over, form a subsequence of its input comments: the cursor only moves
forward and consumes each comment at most once. -/
lemma addDocInner_consume : ∀ (d : Node) (cs : List Comment),
    ((addDocInner d cs).1.map (fun p => p.comment) ++ (addDocInner d cs).2).Sublist cs
  | _, [] => by simp [addDocInner]
  | d, c :: rest => by
    by_cases hl : less d.loc (commentEndLoc c) = true
    · simp only [addDocInner, if_pos hl, List.map_nil, List.nil_append]
      exact List.Sublist.refl _
    · have hl2 : less d.loc (commentEndLoc c) = false := by
        simpa using hl
      by_cases hs : sub32 d.loc.line (commentEndLoc c).line ≤ 1
      · simp only [addDocInner, hl2, Bool.false_eq_true, if_false, if_pos hs,
          List.map_cons, List.cons_append]
        exact (addDocInner_consume d rest).cons₂ c
      · simp only [addDocInner, hl2, Bool.false_eq_true, if_false, if_neg hs]
        exact (addDocInner_consume d rest).cons c

/-! ### Lemmas about declaration extraction -/

instance : IsTotal Node declLE :=
  ⟨fun a b => by
    simp only [declLE, less_eq_false_iff]
    omega⟩

instance : IsTrans Node declLE :=
  ⟨fun a b c hab hbc => by
    simp only [declLE, less_eq_false_iff] at hab hbc ⊢
    omega⟩

/-- The namespace-rerooting loop of `findGlobalDecls` selects the last
namespace child, if any. -/
lemma foldl_namespace : ∀ (l : List Node) (init : Node),
    l.foldl (fun r child => if child.kind = CKind.namespaceK then child else r) init =
      (l.filter fun c => decide (c.kind = CKind.namespaceK)).getLastD init
  | [], _ => rfl
  | c :: rest, init => by
    by_cases hc : c.kind = CKind.namespaceK
    · simp only [List.foldl_cons, if_pos hc]
      rw [foldl_namespace rest c,
        List.filter_cons_of_pos (by simp [hc]), List.getLastD_cons]
    · simp only [List.foldl_cons, if_neg hc]
      rw [foldl_namespace rest init,
        List.filter_cons_of_neg (by simp [hc])]

/-! ### Claim theorems -/

/-- C3 (code evaluated at the failing input): on the comment sequence
line comment at (1,1), block comment at (2,1), line comment at (2,11),
`mergeLineComments` merges the two line comments across the intervening
block comment, drops the block comment from the output entirely, and emits
the second line comment twice (once inside the merged literal, once
standalone) — instead of leaving all three comments untouched. -/
theorem mergeLineComments_drops_block_comment :
    mergeLineComments [cmFoo, cmBar, cmBaz] =
      [⟨("// foo\n// baz").data, ⟨cf, 1, 1⟩⟩, cmBaz] ∧
    cmBar ∉ mergeLineComments [cmFoo, cmBar, cmBaz] := by
  constructor
  · rfl
  · decide

/-- C6 (counterexample): storing an identifier that is already present with
the very same value still emits the conflict warning, although the claim
says the warning appears only when the stored value differs. -/
theorem putComment_warns_on_unchanged_value :
    (putComment [(("bar").data, ("// x").data)] ("bar").data ("// x").data).2 = true ∧
    alistLookup [(("bar").data, ("// x").data)] ("bar").data = some (("// x").data) :=
  ⟨rfl, rfl⟩

/-- C6 (amended): `putComment` warns exactly when the identifier is already
present — whatever value it is bound to — and in every case the new value
overwrites the old binding. -/
theorem putComment_warn_iff_present (m : List (Str × Str)) (ident new : Str) :
    ((putComment m ident new).2 = true ↔ ∃ old, alistLookup m ident = some old) ∧
    alistLookup (putComment m ident new).1 ident = some new := by
  constructor
  · show ((alistLookup m ident).isSome = true ↔ _)
    exact Option.isSome_iff_exists
  · exact alistLookup_insert_self m ident new

/-- C4 (counterexample): a failing source file makes the extractor's file
loop return the fatal error: the run aborts and the following, well-formed
file — which alone would contribute its identifier to the output map — is
never processed. -/
theorem extractorRun_aborts_on_file_error :
    extractorRun [Except.error ("boom").data, Except.ok (cComments, cTree)] [] =
      Except.error (("boom").data) ∧
    extractorRun [Except.ok (cComments, cTree)] [] =
      Except.ok [(("foo").data, ("// does foo").data)] :=
  ⟨rfl, rfl⟩

/-- C4 (amended): in the extractor CLI an error while processing one source
file is fatal: after any number of successfully processed files, the first
failing file aborts the run with its error, and the remaining files are not
processed. -/
theorem extractorRun_fatal_of_error :
    ∀ (pre rest : List (Except Str (List Comment × Node)))
      (m : List (Str × Str)) (e : Str), (∀ r ∈ pre, r.isOk = true) →
      extractorRun (pre ++ Except.error e :: rest) m = Except.error e
  | [], _, _, _, _ => rfl
  | r :: pre, rest, m, e, h =>
    match r, h r (by simp) with
    | .ok d, _ => by
      obtain ⟨cs, root⟩ := d
      simp only [List.cons_append, extractorRun, parse]
      exact extractorRun_fatal_of_error pre rest _ e fun x hx => h x (by simp [hx])
    | .error e2, he => Bool.noConfusion he

/-- C4 (witness): the amended abort behaviour at a concrete run — one good
file followed by a failing one. -/
theorem extractorRun_fatal_of_error_witness :
    extractorRun [Except.ok (cComments, cTree), Except.error ("kaput").data] [] =
      Except.error (("kaput").data) :=
  extractorRun_fatal_of_error [Except.ok (cComments, cTree)] [] []
    (("kaput").data) (by decide)

/-- C2 (counterexample): extracting the doc comment of `origSrc` into the
identifier map and injecting that map back into the unmodified `origSrc`
does not reproduce `origSrc`: the comment is inserted a second time above
the declaration and a newline is appended. -/
theorem extract_inject_original_not_identical :
    (addComments origSrc (findGlobalDecls cTree) cMap).1 =
      ("// does foo\n// does foo\nint foo() \x7b\x7d\n").data ∧
    (addComments origSrc (findGlobalDecls cTree) cMap).1 ≠ origSrc := by
  constructor
  · rfl
  · decide

/-- C2 (amended): the map extracted from `origSrc` is exactly
foo to its line comment, and injecting that map into the copy of the file
with the comment line removed reproduces `origSrc` with exactly one newline
appended (the rewriter always appends one trailing newline). -/
theorem extract_inject_stripped_roundtrip :
    cMap = [(("foo").data, ("// does foo").data)] ∧
    (addComments strippedSrc (findGlobalDecls cTree2) cMap).1 = origSrc ++ ['\n'] :=
  ⟨rfl, rfl⟩

/-- C5 (counterexample): with an empty identifier map — so no identifier
matches — the rewriter does not return the original text unchanged: it
appends a newline and reports a change. -/
theorem addComments_no_match_changes :
    (addComments ("int x;\nint y;").data [] []).1 ≠ ("int x;\nint y;").data ∧
    (addComments ("int x;\nint y;").data [] []).2 = true := by
  constructor
  · decide
  · rfl

/-- C7 (counterexample): `findDecls` collects the function declaration `nG`
nested below the non-declaration wrapper `nW` — not only direct children —
and `findGlobalDecls` returns the direct children in child order `nF2, nF1`
without sorting them by position. -/
theorem findDecls_collects_nested :
    cTree7.children = [nF2, nF1, nW] ∧
    findDecls cTree7 = [nF1, nF2, nG] ∧
    findGlobalDecls cTree7 = [nF2, nF1] :=
  ⟨rfl, rfl, rfl⟩

/-- C1 (counterexample): `addDocComments` can pair one declaration with two
comments: the declaration on line 5 adopts both the line comment ending on
line 4 and the block comment on line 5, refuting "at most one comment" per
declaration. -/
theorem addDocComments_two_comments_for_one_decl :
    (addDocComments [dFoo] [cA, cB]).map (fun p => p.decl) = [dFoo, dFoo] ∧
    (addDocComments [dFoo] [cA, cB]).map (fun p => p.comment) = [cA, cB] :=
  ⟨rfl, rfl⟩

/-- C1 (amended): every pair produced by `addDocComments` joins one of the
given declarations with a comment that does not end after the declaration's
start and whose end line is the declaration's start line or the line just
above (a declaration may adopt several such comments); the adopted comments
— in order, each consumed at most once — form a subsequence of the comment
stream (a single forward cursor, never revisited). -/
theorem addDocComments_window_cursor :
    ∀ (decls : List Node) (comments : List Comment),
      (∀ d ∈ decls, d.loc.line < U32) →
      (∀ p ∈ addDocComments decls comments,
        p.decl ∈ decls ∧
        less p.decl.loc (commentEndLoc p.comment) = false ∧
        (commentEndLoc p.comment).line ≤ p.decl.loc.line ∧
        p.decl.loc.line ≤ (commentEndLoc p.comment).line + 1) ∧
      ((addDocComments decls comments).map (fun p => p.comment)).Sublist comments
  | [], comments, _ => by
    constructor
    · intro p hp
      simp [addDocComments] at hp
    · simp only [addDocComments, List.map_nil]
      exact List.nil_sublist _
  | d :: ds, comments, h => by
    have hd : d.loc.line < U32 := h d (by simp)
    have ihr := addDocComments_window_cursor ds (addDocInner d comments).2
      fun x hx => h x (by simp [hx])
    constructor
    · intro p hp
      simp only [addDocComments] at hp
      rcases List.mem_append.mp hp with hp1 | hp1
      · obtain ⟨he, hw1, hw2, hw3⟩ := addDocInner_window d comments hd p hp1
        rw [he]
        exact ⟨by simp, hw1, hw2, hw3⟩
      · obtain ⟨hm, hw⟩ := ihr.1 p hp1
        exact ⟨List.mem_cons_of_mem _ hm, hw⟩
    · simp only [addDocComments, List.map_append]
      exact (ihr.2.append_left _).trans (addDocInner_consume d comments)

/-- C1 (witness): the amended window and cursor facts at the concrete
declaration `dFoo` with comments `cA, cB`: the pair of `dFoo` and `cA`
satisfies the adoption window and the adopted comments are a subsequence of
the input. -/
theorem addDocComments_window_cursor_witness :
    dFoo ∈ [dFoo] ∧
    less dFoo.loc (commentEndLoc cA) = false ∧
    (commentEndLoc cA).line ≤ dFoo.loc.line ∧
    dFoo.loc.line ≤ (commentEndLoc cA).line + 1 ∧
    ((addDocComments [dFoo] [cA, cB]).map (fun p => p.comment)).Sublist [cA, cB] := by
  have h := addDocComments_window_cursor [dFoo] [cA, cB] (by decide)
  have h1 := h.1 ⟨dFoo, cA⟩ (List.mem_cons_self _ _)
  exact ⟨h1.1, h1.2.1, h1.2.2.1, h1.2.2.2, h.2⟩

/-- C5 (amended): `addComments` reports no change exactly when the rebuilt
text equals the original byte-for-byte; but when no declaration's identifier
is found in the map, the rebuilt text is the original with one newline
appended, so a change is always reported in that case. -/
theorem addComments_change_iff (src : Str) (decls : List Node)
    (dcs : List (Str × Str)) :
    (((addComments src decls dcs).2 = false) ↔
      (addComments src decls dcs).1 = src) ∧
    ((∀ d ∈ decls, alistLookup dcs d.spelling = none) →
      addComments src decls dcs = (src ++ ['\n'], true)) := by
  constructor
  · show (if src = emitLines (buildLineComments decls dcs) 0 (splitNl src)
        then false else true) = false
        ↔ emitLines (buildLineComments decls dcs) 0 (splitNl src) = src
    split_ifs with h
    · exact iff_of_true rfl h.symm
    · exact iff_of_false (by simp) fun he => h he.symm
  · intro h
    exact addComments_of_lineComments_nil (buildLineComments_eq_nil decls dcs h)

/-- C5 (witness): the amended facts at a concrete file and the empty map. -/
theorem addComments_change_iff_witness :
    (((addComments ("int x;").data [] []).2 = false) ↔
      (addComments ("int x;").data [] []).1 = ("int x;").data) ∧
    addComments ("int x;").data [] [] = (("int x;").data ++ ['\n'], true) := by
  have h := addComments_change_iff (("int x;").data) [] []
  exact ⟨h.1, h.2 (by simp)⟩

/-- C7 (amended): `findDecls` returns a permutation of all variable- and
function-declaration nodes of the whole traversal — any depth — sorted by
the `less` comparator; `findGlobalDecls` returns exactly the variable- and
function-declaration children of the root — or of the last namespace child,
when one exists — in child order. -/
theorem findDecls_findGlobalDecls_characterization :
    (∀ t : Node, ((findDecls t).Perm ((walk t).filter isDeclKind)) ∧
      List.Sorted declLE (findDecls t)) ∧
    ∀ t : Node, findGlobalDecls t =
      ((t.children.filter fun c =>
        decide (c.kind = CKind.namespaceK)).getLastD t).children.filter isDeclKind := by
  refine ⟨fun t => ⟨List.perm_insertionSort _ _, List.sorted_insertionSort _ _⟩,
    fun t => ?_⟩
  show ((t.children.foldl
      (fun r child => if child.kind = CKind.namespaceK then child else r)
      t).children.filter isDeclKind) = _
  rw [foldl_namespace]

/-- C9: with nothing recorded in the line-comment map, `addComments` emits
each split line followed by a newline, so it returns the original text with
exactly one newline appended and always reports a change. -/
theorem addComments_appends_newline (src : Str) (decls : List Node)
    (dcs : List (Str × Str)) (h : buildLineComments decls dcs = []) :
    addComments src decls dcs = (src ++ ['\n'], true) :=
  addComments_of_lineComments_nil h

/-- C9 (witness): the appended newline and reported change at a concrete
file. -/
theorem addComments_appends_newline_witness :
    addComments ("// a\nint b;").data [] [] =
      (("// a\nint b;").data ++ ['\n'], true) :=
  addComments_appends_newline (("// a\nint b;").data) [] [] rfl

/-- C8: `normalizeComment` maps each line of the stored comment — obtained
by splitting on newlines — to itself with one leading slash removed when the
line begins with three slashes, and to itself verbatim otherwise, preserving
the number of lines and their order; a line beginning with three slashes is
its own first slash followed by what remains after dropping it. -/
theorem normalizeComment_lines (comment : Str) :
    splitNl (normalizeComment comment) =
      (splitNl comment).map
        (fun line => if ("///".data).isPrefixOf line then line.drop 1 else line) ∧
    (splitNl (normalizeComment comment)).length = (splitNl comment).length ∧
    ∀ line ∈ splitNl comment, ("///".data).isPrefixOf line = true →
      line = '/' :: line.drop 1 := by
  have hs : splitNl (normalizeComment comment) =
      (splitNl comment).map
        (fun line => if ("///".data).isPrefixOf line then line.drop 1 else line) := by
    unfold normalizeComment
    refine splitNl_joinNl ?_ ?_
    · intro hmap
      exact splitNl_ne_nil comment (List.map_eq_nil_iff.mp hmap)
    · intro p hp
      rcases List.mem_map.mp hp with ⟨q, hq, rfl⟩
      by_cases hpre : ("///".data).isPrefixOf q
      · rw [if_pos hpre]
        intro hmem
        exact noNl_mem_splitNl comment q hq (List.drop_subset _ _ hmem)
      · rw [if_neg hpre]
        exact noNl_mem_splitNl comment q hq
  refine ⟨hs, by rw [hs]; simp, ?_⟩
  intro line hline hpre
  rcases List.isPrefixOf_iff_prefix.mp hpre with ⟨t, rfl⟩
  rfl

/-- C8 (witness): the per-line normalization facts at a concrete two-line
comment whose first line begins with three slashes. -/
theorem normalizeComment_lines_witness :
    splitNl (normalizeComment ("/// doc\n// x").data) =
      (splitNl ("/// doc\n// x").data).map
        (fun line => if ("///".data).isPrefixOf line then line.drop 1 else line) ∧
    (splitNl (normalizeComment ("/// doc\n// x").data)).length =
      (splitNl ("/// doc\n// x").data).length ∧
    ("/// doc").data = '/' :: ("/// doc").data.drop 1 := by
  have h := normalizeComment_lines (("/// doc\n// x").data)
  exact ⟨h.1, h.2.1, h.2.2 (("/// doc").data) (by decide) (by decide)⟩

/-- C10: under the guard of `addDocComments` — the declaration's start does
not precede the comment's end — the declaration's line is at least the
comment's end line, so the `uint32` subtraction of the two lines does not
wrap and equals the exact integer difference. -/
theorem addDocComments_sub32_no_wrap (d : Location) (c : Comment)
    (hd : d.line < U32) (hg : less d (commentEndLoc c) = false) :
    (commentEndLoc c).line ≤ d.line ∧
    sub32 d.line (commentEndLoc c).line = d.line - (commentEndLoc c).line ∧
    (sub32 d.line (commentEndLoc c).line : Int) =
      (d.line : Int) - ((commentEndLoc c).line : Int) := by
  have hb := commentEndLoc_line_lt c
  have hle : (commentEndLoc c).line ≤ d.line := by
    rcases less_eq_false_iff.mp hg with h | h <;> omega
  have hsub := sub32_eq_sub hle hd hb
  refine ⟨hle, hsub, ?_⟩
  omega

/-- C10 (witness): the no-wrap facts at the concrete declaration `dFoo` and
comment `cA`. -/
theorem addDocComments_sub32_no_wrap_witness :
    (commentEndLoc cA).line ≤ dFoo.loc.line ∧
    sub32 dFoo.loc.line (commentEndLoc cA).line =
      dFoo.loc.line - (commentEndLoc cA).line ∧
    (sub32 dFoo.loc.line (commentEndLoc cA).line : Int) =
      (dFoo.loc.line : Int) - ((commentEndLoc cA).line : Int) :=
  addDocComments_sub32_no_wrap dFoo.loc cA (by decide) (by decide)
